import Mathlib

/-
Verification of the whatnot review-extraction pipeline.

The pipeline is shallowly embedded: JS numbers are modelled as rationals
(every numeric literal this pipeline manipulates is a short decimal, on
which JS float comparison agrees with exact rational comparison), JS
strings as Lean strings over their character lists, captured JSON
payloads as an inductive tree, and the rendered document as a flat arena
of elements carrying their flattened text and a parent link (the only
DOM observations the code makes are textContent, tag membership,
document order and parentElement).
-/

namespace Whatnot

/-- ASCII whitespace matched by the JS regex class backslash-s (the inputs
this pipeline sees are ASCII, so the Unicode members of the class are not
modelled). -/
def jsWs (c : Char) : Bool :=
  c = ' ' || c = '\t' || c = '\n' || c = '\r' || c = '\x0b' || c = '\x0c'

/-- JS word character (regex backslash-w): letters, digits, underscore. -/
def wordChar (c : Char) : Bool :=
  c.isAlpha || c.isDigit || c = '_'

/-- One step of the JS replacement of every whitespace run by a single
space: each maximal run of whitespace collapses to one space character. -/
def collapseWs : List Char → List Char
  | [] => []
  | [c] => [if jsWs c then ' ' else c]
  | c1 :: c2 :: cs =>
    if jsWs c1 && jsWs c2 then collapseWs (c2 :: cs)
    else (if jsWs c1 then ' ' else c1) :: collapseWs (c2 :: cs)

/-- Removal of trailing whitespace, through a reversal. -/
def backTrim (l : List Char) : List Char :=
  (l.reverse.dropWhile jsWs).reverse

/-- JS String.prototype.trim on a character list: drop whitespace from both
ends. -/
def jsTrimL (l : List Char) : List Char :=
  backTrim (l.dropWhile jsWs)

/-- JS String.prototype.trim. -/
def jsTrim (s : String) : String :=
  String.mk (jsTrimL s.data)

/-- The `clean` helper shared by all three variants: collapse every
whitespace run to a single space, then trim. -/
def clean (s : String) : String :=
  String.mk (jsTrimL (collapseWs s.data))

/-- Captured JSON payloads: an acyclic tree of objects, arrays and scalars,
with numbers as rationals. -/
inductive Json where
  | null : Json
  | bool : Bool → Json
  | num : ℚ → Json
  | str : String → Json
  | arr : List Json → Json
  | obj : List (String × Json) → Json

/-- JS truthiness on a JSON value: null, false, 0 and the empty string are
falsy. -/
def jsFalsy : Json → Bool
  | .null => true
  | .bool b => !b
  | .num q => decide (q = 0)
  | .str s => decide (s = "")
  | _ => false

/-- The `isObject` helper: a non-null object that is not an array. -/
def isObject : Json → Bool
  | .obj _ => true
  | _ => false

/-- JS String.prototype.includes: substring containment on character
lists. -/
def charsContain (pat : List Char) : List Char → Bool
  | [] => pat.isEmpty
  | c :: cs => pat.isPrefixOf (c :: cs) || charsContain pat cs

/-- JS String.prototype.includes. -/
def strIncludes (hay pat : String) : Bool :=
  charsContain pat.data hay.data

/-- JS toLowerCase on one character, restricted to ASCII (the inputs of
this pipeline). -/
def lowerChar (c : Char) : Char :=
  if 'A' ≤ c && c ≤ 'Z' then Char.ofNat (c.toNat + 32) else c

/-- JS toLowerCase, restricted to ASCII. -/
def lowerStr (s : String) : String :=
  String.mk (s.data.map lowerChar)

/-- `Object.keys(item).map(k => k.toLowerCase())`. -/
def lowerKeys (kvs : List (String × Json)) : List String :=
  kvs.map fun kv => lowerStr kv.1

/-- The `hasRating` key test of findReviewItemsDeep: an exact key rating,
stars or score, or any key containing rating. -/
def hasRatingKey (keys : List String) : Bool :=
  keys.contains "rating" || keys.contains "stars" || keys.contains "score" ||
    keys.any fun k => strIncludes k "rating"

/-- The `hasText` key test of findReviewItemsDeep: an exact key text,
message, comment or review, or any key containing comment, message or
text. -/
def hasTextKey (keys : List String) : Bool :=
  keys.contains "text" || keys.contains "message" || keys.contains "comment" ||
    keys.contains "review" ||
    keys.any fun k => strIncludes k "comment" || strIncludes k "message" || strIncludes k "text"

/-- The `hasUser` key test of findReviewItemsDeep: an exact key username,
reviewer, buyer or user, or any key containing user or buyer. -/
def hasUserKey (keys : List String) : Bool :=
  keys.contains "username" || keys.contains "reviewer" || keys.contains "buyer" ||
    keys.contains "user" ||
    keys.any fun k => strIncludes k "user" || strIncludes k "buyer"

/-- The per-element classification inside findReviewItemsDeep, applied to
the lowercased own key names of an object element. -/
def reviewLike : Json → Bool
  | .obj kvs =>
      let keys := lowerKeys kvs
      hasRatingKey keys && hasTextKey keys && hasUserKey keys
  | _ => false

mutual
/-- Translation of `findReviewItemsDeep(node, found)`: for an array, first
collect the batch of elements that are review-like objects, then keep
traversing every element; for an object, traverse its values; falsy nodes
return the accumulator unchanged. -/
def findReviewItemsDeep (node : Json) (found : List Json) : List Json :=
  if jsFalsy node then found
  else
    match node with
    | .arr xs =>
        let maybe := xs.filter fun it => isObject it && reviewLike it
        let found2 := if 1 ≤ maybe.length then found ++ maybe else found
        findDeepList xs found2
    | .obj kvs => findDeepVals kvs found
    | _ => found

/-- The `for (const item of node) findReviewItemsDeep(item, found)` loop. -/
def findDeepList (xs : List Json) (found : List Json) : List Json :=
  match xs with
  | [] => found
  | x :: rest => findDeepList rest (findReviewItemsDeep x found)

/-- The `for (const v of Object.values(node)) findReviewItemsDeep(v, found)`
loop. -/
def findDeepVals (kvs : List (String × Json)) (found : List Json) : List Json :=
  match kvs with
  | [] => found
  | kv :: rest => findDeepVals rest (findReviewItemsDeep kv.2 found)
end

/-- Numeric value of an ASCII digit. -/
def digitVal (c : Char) : ℕ :=
  c.toNat - '0'.toNat

/-- Value of a digit string read in base 10. -/
def digitsToNat (ds : List Char) : ℕ :=
  ds.foldl (fun a c => 10 * a + digitVal c) 0

/-- Model of the JS parseFloat builtin on decimal literals: skip leading
whitespace, read an optional sign, an integer part and an optional
fractional part, ignore everything after; none models NaN (no digit read).
Exponent and Infinity forms never arise from this pipeline's inputs. -/
def parseFloatQ (s : String) : Option ℚ :=
  let l := s.data.dropWhile jsWs
  let sgn : ℚ := match l with
    | '-' :: _ => -1
    | _ => 1
  let l1 : List Char := match l with
    | '-' :: rest => rest
    | '+' :: rest => rest
    | _ => l
  let intPart := l1.takeWhile Char.isDigit
  let l2 := l1.dropWhile Char.isDigit
  let fracPart : List Char := match l2 with
    | '.' :: rest => rest.takeWhile Char.isDigit
    | _ => []
  if intPart.isEmpty && fracPart.isEmpty then none
  else some (sgn * ((digitsToNat intPart : ℚ) + (digitsToNat fracPart : ℚ) / (10 : ℚ) ^ fracPart.length))

/-- JS own-property access `j[k]` on a JSON value; only objects have the
string-keyed own properties probed here. -/
def jsProp (j : Json) (k : String) : Option Json :=
  match j with
  | .obj kvs => kvs.lookup k
  | _ => none

/-- The `get(obj, keys)` helper of normalizeReview: the first key whose
value is present and not null. A falsy or non-object base has no probed
property, matching the `obj && obj[k] != null` guard. -/
def jsGet (j : Json) : List String → Option Json
  | [] => none
  | k :: ks =>
    match jsProp j k with
    | some .null => jsGet j ks
    | some v => some v
    | none => jsGet j ks

/-- `isObject(item.f) ? get(item.f, keys) : null`: descend one level into a
sub-object field and probe keys there. -/
def subObjGet (item : Json) (field : String) (keys : List String) : Option Json :=
  match jsProp item field with
  | some (.obj kvs) => jsGet (.obj kvs) keys
  | _ => none

/-- The rating resolution of normalizeReview: probe the alias lists, coerce
a string through parseFloat, and map every non-number (including NaN) to
null. -/
def ratingOfItem (item : Json) : Option ℚ :=
  let r := (jsGet item ["rating", "stars", "score"]).orElse
             fun _ => jsGet item ["starRating", "star_rating", "reviewRating"]
  match r with
  | some (.str s) => parseFloatQ s
  | some (.num q) => some q
  | _ => none

/-- The reviewer resolution of normalizeReview before string coercion. -/
def reviewerRaw (item : Json) : Option Json :=
  (jsGet item ["reviewer", "username"]).orElse fun _ =>
  (subObjGet item "user" ["username", "name", "handle"]).orElse fun _ =>
  (subObjGet item "buyer" ["username", "name", "handle"]).orElse fun _ =>
  subObjGet item "reviewer" ["username", "name", "handle"]

/-- The text resolution of normalizeReview before string coercion. -/
def textRaw (item : Json) : Option Json :=
  (jsGet item ["text", "message", "comment", "review"]).orElse fun _ =>
  (jsGet item ["body", "content"]).orElse fun _ =>
  subObjGet item "feedback" ["text", "message", "comment"]

/-- `typeof v === "string" ? v : ""` applied to a resolved optional value. -/
def strOrEmpty : Option Json → String
  | some (.str s) => s
  | _ => ""

/-- A provisional extraction result: reviewer and text are always strings
after normalization (possibly empty), the rating is a number or null. -/
structure CandidateRecord where
  reviewer : String
  rating : Option ℚ
  text : String
deriving DecidableEq

/-- Translation of `normalizeReview(item)`. -/
def normalizeReview (item : Json) : CandidateRecord :=
  { reviewer := clean (strOrEmpty (reviewerRaw item))
    rating := ratingOfItem item
    text := clean (strOrEmpty (textRaw item)) }

/-- JS number-to-string as used in the dedupe key template: an injective
printer of the rational (dedupe behavior depends only on injectivity of
the printed numeral); null prints as the four letters null. -/
def ratingKeyStr : Option ℚ → String
  | none => "null"
  | some q => toString q.num ++ "/" ++ toString q.den

/-- The template-literal dedupe key reviewer|rating|text. -/
def dedupeKey (r : CandidateRecord) : String :=
  r.reviewer ++ "|" ++ ratingKeyStr r.rating ++ "|" ++ r.text

/-- The dedupe filter of the network variant, lines 178-184: keep a record
whose key is unseen, remembering it, preserving first-seen order. -/
def dedupeGo (seen : List String) : List CandidateRecord → List CandidateRecord
  | [] => []
  | r :: rs =>
    if seen.contains (dedupeKey r) then dedupeGo seen rs
    else r :: dedupeGo (dedupeKey r :: seen) rs

/-- `extracted.filter(...)` with the seen set starting empty. -/
def dedupe (xs : List CandidateRecord) : List CandidateRecord :=
  dedupeGo [] xs

/-- The character class [0-5] heading a rating token. -/
def ratingLeadDigit (c : Char) : Bool :=
  decide ('0' ≤ c) && decide (c ≤ '5')

/-- A word boundary next to a word character holds when the neighbour is
absent or not a word character. -/
def noWordNeighbor : Option Char → Bool
  | none => true
  | some c => !wordChar c

/-- Leftmost match of the rating pattern (word boundary, digit 0-5, dot,
digit, word boundary); the scan carries the previous character for the
left boundary. -/
def ratingScan (prev : Option Char) : List Char → Option ℚ
  | c1 :: c2 :: c3 :: rest =>
    if ratingLeadDigit c1 && c2 == '.' && c3.isDigit && noWordNeighbor prev
        && noWordNeighbor rest.head? then
      some ((digitVal c1 : ℚ) + (digitVal c3 : ℚ) / 10)
    else ratingScan (some c1) (c2 :: c3 :: rest)
  | _ => none

/-- `getRating(t)`: parseFloat of the first rating token (exact on one
decimal digit). -/
def getRating (t : String) : Option ℚ :=
  ratingScan none t.data

/-- `getReviewer(t)`: the anchored reviewer pattern (optional leading
whitespace, three to twenty-five word characters, word boundary),
case-insensitively.  The greedy quantifier followed by the boundary
matches exactly the maximal word run when its length lies in the range,
and fails otherwise. -/
def reviewerAtStart (t : String) : Option String :=
  let l := t.data.dropWhile jsWs
  let run := l.takeWhile wordChar
  if 3 ≤ run.length && run.length ≤ 25 then some (String.mk run) else none

/-- Case-insensitive containment of an already-lowercase pattern. -/
def containsCI (t : String) (pat : String) : Bool :=
  strIncludes (lowerStr t) pat

/-- The isNoise test of the anchor variant, line 66. -/
def isNoise001 (t : String) : Bool :=
  containsCI t "following" || containsCI t "followers" || containsCI t "sold" ||
    containsCI t "whatnot" || containsCI t "become a seller" || containsCI t "log in" ||
    containsCI t "sign up"

/-- Search for the tail alternative of the network noise pattern: the word
reviews, optional whitespace, an opening parenthesis. -/
def reviewsParenScan : List Char → Bool
  | [] => false
  | c :: cs =>
    ("reviews".data.isPrefixOf (c :: cs) &&
      (((c :: cs).drop 7).dropWhile jsWs).head? == some '(')
    || reviewsParenScan cs

/-- The noise filter of the network strategy, line 169. -/
def mjsNetNoise (t : String) : Bool :=
  containsCI t "followers" || containsCI t "following" || containsCI t "sold" ||
    reviewsParenScan (lowerStr t).data

/-- The noise filter of the network variant's DOM fallback, line 196. -/
def mjsDomNoise (t : String) : Bool :=
  containsCI t "followers" || containsCI t "following" || containsCI t "sold"

/-- The expand-marker test. -/
def containsSeeMore (t : String) : Bool :=
  containsCI t "see more"

/-- replace of every case-insensitive occurrence of the expand marker by
the empty string, scanning left to right without overlap; structural on a
fuel that bounds the number of steps (each step consumes at least one
character, so the list's length suffices). -/
def stripSeeMoreFuel : ℕ → List Char → List Char
  | 0, l => l
  | _, [] => []
  | fuel + 1, c :: cs =>
    if "see more".data.isPrefixOf ((c :: cs).map lowerChar) then
      stripSeeMoreFuel fuel (cs.drop 7)
    else c :: stripSeeMoreFuel fuel cs

/-- replace of every case-insensitive occurrence of the expand marker by
the empty string. -/
def stripSeeMoreChars (l : List Char) : List Char :=
  stripSeeMoreFuel l.length l

/-- `raw.replace(/see more/gi, "")`. -/
def stripSeeMoreAll (s : String) : String :=
  String.mk (stripSeeMoreChars s.data)

/-- replace of the dynamically built anchored reviewer pattern (the
reviewer literal, which is a word run, then any whitespace),
case-insensitively, once at the start. -/
def stripReviewerAtStart (reviewer : String) (s : String) : String :=
  if (reviewer.data.map lowerChar).isPrefixOf (s.data.map lowerChar) then
    String.mk ((s.data.drop reviewer.data.length).dropWhile jsWs)
  else s

/-- The date pattern at one position (one or two digits, slash, one or two
digits, slash, exactly four digits, word boundary after): the maximal
digit runs capture the regex backtracking.  Returns the remainder after
the match. -/
def dateAt (l : List Char) : Option (List Char) :=
  let d1 := l.takeWhile Char.isDigit
  let r1 := l.dropWhile Char.isDigit
  if 1 ≤ d1.length && d1.length ≤ 2 then
    match r1 with
    | '/' :: r2 =>
      let d2 := r2.takeWhile Char.isDigit
      let r3 := r2.dropWhile Char.isDigit
      if 1 ≤ d2.length && d2.length ≤ 2 then
        match r3 with
        | '/' :: r4 =>
          let d3 := r4.takeWhile Char.isDigit
          let r5 := r4.dropWhile Char.isDigit
          if d3.length == 4 && noWordNeighbor r5.head? then some r5 else none
        | _ => none
      else none
    | _ => none
  else none

/-- The anchored leading-date strip of the anchor variant, line 146. -/
def stripLeadingDate (s : String) : String :=
  match dateAt s.data with
  | some rest => String.mk (rest.dropWhile jsWs)
  | none => s

/-- Unanchored search for a date token with a left word boundary. -/
def dateSearch (prev : Option Char) : List Char → Bool
  | [] => false
  | c :: cs =>
    (noWordNeighbor prev && (dateAt (c :: cs)).isSome) || dateSearch (some c) cs

/-- `hasDate(t)`, line 76. -/
def hasDate (t : String) : Bool :=
  dateSearch none t.data

/-- The anchored leading-rating strip of the anchor variant, line 149. -/
def stripLeadingRating (s : String) : String :=
  match s.data with
  | c1 :: c2 :: c3 :: rest =>
    if ratingLeadDigit c1 && c2 == '.' && c3.isDigit && noWordNeighbor rest.head? then
      String.mk (rest.dropWhile jsWs)
    else s
  | _ => s

/-- The aggregate-summary pattern at one position of an already-lowercased
text: reviews then a parenthesis, whitespace, a bullet, whitespace, at
least one digit, whitespace, sold. -/
def summaryAt (l : List Char) : Bool :=
  if "reviews)".data.isPrefixOf l then
    match (l.drop 8).dropWhile jsWs with
    | '•' :: r2 =>
      let r3 := r2.dropWhile jsWs
      let ds := r3.takeWhile Char.isDigit
      let r4 := r3.dropWhile Char.isDigit
      1 ≤ ds.length && "sold".data.isPrefixOf (r4.dropWhile jsWs)
    | _ => false
  else false

/-- Unanchored search for the aggregate-summary pattern. -/
def summaryScan : List Char → Bool
  | [] => false
  | c :: cs => summaryAt (c :: cs) || summaryScan cs

/-- The summary-line gate of the anchor variant, line 155. -/
def hasSummaryPattern (t : String) : Bool :=
  summaryScan (lowerStr t).data

/-- The candidate-card parsing of the anchor variant, lines 128-163: noise,
rating and reviewer gates, the body strips (expand markers everywhere,
the reviewer once at the start, a leading date once, a leading rating
once), then the minimum-length and summary-line gates. -/
def parseCard (raw : String) : Option CandidateRecord :=
  if isNoise001 raw then none
  else
    match getRating raw with
    | none => none
    | some rating =>
      match reviewerAtStart raw with
      | none => none
      | some reviewer =>
        let body1 := jsTrim (stripSeeMoreAll raw)
        let body2 := jsTrim (stripReviewerAtStart reviewer body1)
        let body3 := jsTrim (stripLeadingDate body2)
        let body4 := jsTrim (stripLeadingRating body3)
        if body4.length < 10 then none
        else if hasSummaryPattern body4 then none
        else some ⟨reviewer, some rating, body4⟩

/-- One block of the network variant's DOM fallback, lines 195-212. -/
def mjsParseBlock (t : String) : Option CandidateRecord :=
  if mjsDomNoise t then none
  else
    match getRating t, reviewerAtStart t with
    | some rating, some reviewer =>
        let body1 := jsTrim (stripSeeMoreAll t)
        let body2 := jsTrim (stripReviewerAtStart reviewer body1)
        if body2.length < 10 then none
        else some ⟨reviewer, some rating, body2⟩
    | _, _ => none

/-- The per-item gate of the network strategy, lines 165-169: drop a
normalized record with an empty reviewer, empty text or null rating, then
drop obvious noise by text. -/
def networkGate (it : Json) : Option CandidateRecord :=
  let r := normalizeReview it
  if r.reviewer == "" || r.text == "" || r.rating.isNone then none
  else if mjsNetNoise r.text then none
  else some r

/-- The inner item loop of the network strategy: gate each deep-found item,
reporting a break once more than fifty records are collected. -/
def netItems : List Json → List CandidateRecord → List CandidateRecord × Bool
  | [], acc => (acc, false)
  | it :: its, acc =>
    match networkGate it with
    | none => netItems its acc
    | some r =>
      let acc2 := r :: acc
      if 50 < acc2.length then (acc2, true) else netItems its acc2

/-- The outer payload loop of the network strategy, lines 162-175. -/
def netPayloads : List Json → List CandidateRecord → List CandidateRecord
  | [], acc => acc.reverse
  | c :: cs, acc =>
    match netItems (findReviewItemsDeep c []) acc with
    | (acc2, true) => acc2.reverse
    | (acc2, false) => netPayloads cs acc2

/-- The extracted list of the network strategy before deduplication. -/
def networkExtract (payloads : List Json) : List CandidateRecord :=
  netPayloads payloads []

/-- One rendered element: its tag name, its flattened text and its parent's
index in the document's node list. -/
structure DomNode where
  tag : String
  textContent : String
  parent : Option ℕ
deriving DecidableEq

/-- The rendered document: elements in document order. -/
structure DomDoc where
  nodes : List DomNode

/-- querySelectorAll restricted to a list of tag names, in document
order. -/
def DomDoc.byTags (doc : DomDoc) (tags : List String) : List DomNode :=
  doc.nodes.filter fun n => tags.contains n.tag

/-- The ancestor walk of the anchor strategy, lines 92-101: from a parent
link, ascend at most ten levels and return the first ancestor whose
cleaned text has a rating token, is not noise, and has a plausible-card
length. -/
def ancestorFind (doc : DomDoc) : ℕ → Option ℕ → Option DomNode
  | 0, _ => none
  | _, none => none
  | fuel + 1, some idx =>
    match doc.nodes.get? idx with
    | none => none
    | some nd =>
      let t := clean nd.textContent
      if (getRating t).isSome && !isNoise001 t && decide (40 < t.length)
          && decide (t.length < 900) then some nd
      else ancestorFind doc fuel nd.parent

/-- The compact-block fallback scan of the anchor variant, lines 110-123:
keep length-filtered blocks having a rating and either a date or an
expand marker; stop once more than sixty candidates are kept. -/
def blockFallbackGo : List (DomNode × String) → List DomNode → List DomNode
  | [], acc => acc.reverse
  | b :: bs, acc =>
    let keep := (getRating b.2).isSome && !isNoise001 b.2 && (hasDate b.2 || containsSeeMore b.2)
    let acc2 := if keep then b.1 :: acc else acc
    if 60 < acc2.length then acc2.reverse else blockFallbackGo bs acc2

/-- The compact-block fallback of the anchor variant, lines 105-123. -/
def blockFallback (doc : DomDoc) : List DomNode :=
  let blocks := (doc.byTags ["div"]).map fun el => (el, clean el.textContent)
  blockFallbackGo (blocks.filter fun b => decide (40 < b.2.length) && decide (b.2.length < 650)) []

/-- The card-parsing loop of the anchor variant, lines 128-164, collecting
until more than three times the limit would be exceeded (the break runs
after each push). -/
def parseCardsGo (cap : ℕ) : List DomNode → List CandidateRecord → List CandidateRecord
  | [], acc => acc.reverse
  | card :: cs, acc =>
    match parseCard (clean card.textContent) with
    | none => parseCardsGo cap cs acc
    | some r =>
      let acc2 := r :: acc
      if cap ≤ acc2.length then acc2.reverse else parseCardsGo cap cs acc2

/-- The capped dedupe loop of the anchor variant, lines 167-175. -/
def dedupeCapGo (limit : ℕ) : List String → List CandidateRecord → List CandidateRecord → List CandidateRecord
  | _, acc, [] => acc.reverse
  | seen, acc, r :: rs =>
    if seen.contains (dedupeKey r) then dedupeCapGo limit seen acc rs
    else
      let acc2 := r :: acc
      if limit ≤ acc2.length then acc2.reverse
      else dedupeCapGo limit (dedupeKey r :: seen) acc2 rs

/-- The capped dedupe of the anchor variant. -/
def dedupeCap (limit : ℕ) (xs : List CandidateRecord) : List CandidateRecord :=
  dedupeCapGo limit [] [] xs

/-- The page.evaluate body of the anchor variant, lines 62-178: locate
cards from expand-marker anchors, fall back to the compact-block scan
when no card is found, parse, dedupe with the cap, and slice to the
limit. -/
def anchorEvaluate (doc : DomDoc) (limit : ℕ) : List CandidateRecord :=
  let seeMoreEls := (doc.byTags ["a", "button"]).filter fun el =>
    containsSeeMore (clean el.textContent)
  let cards := seeMoreEls.filterMap fun el => ancestorFind doc 10 el.parent
  let cards2 := if cards.isEmpty then blockFallback doc else cards
  let out := parseCardsGo (limit * 3) cards2 []
  (dedupeCap limit out).take limit

/-- The block loop of the network variant's DOM fallback, lines 195-212
(no deduplication in this strategy; the break runs after each push). -/
def domFallbackGo (limit : ℕ) : List String → List CandidateRecord → List CandidateRecord
  | [], acc => acc.reverse
  | t :: ts, acc =>
    match mjsParseBlock t with
    | none => domFallbackGo limit ts acc
    | some r =>
      let acc2 := r :: acc
      if limit ≤ acc2.length then acc2.reverse else domFallbackGo limit ts acc2

/-- The DOM fallback of the network variant, lines 188-214. -/
def domFallback (doc : DomDoc) (limit : ℕ) : List CandidateRecord :=
  let blocks := ((doc.byTags ["div"]).map fun el => clean el.textContent).filter
    fun t => decide (40 < t.length) && decide (t.length < 500)
  (domFallbackGo limit blocks []).take limit

/-- The whole pipeline of the network variant's main, lines 160-220:
network extraction, dedupe, the DOM fallback when nothing was extracted,
and the final truncation to the limit. -/
def mjsRun (payloads : List Json) (doc : DomDoc) (limit : ℕ) : List CandidateRecord :=
  let extracted := dedupe (networkExtract payloads)
  let extracted2 := if extracted.isEmpty then domFallback doc limit else extracted
  extracted2.take limit

/-- A serialized review of the output payload. -/
structure ReviewRecord where
  reviewer : String
  rating : ℚ
  text : String
deriving DecidableEq

/-- Serialization of one review in the network variant, lines 227-231:
the rating of the record when it is a number, else five. -/
def serializeReview (r : CandidateRecord) : ReviewRecord :=
  { reviewer := clean r.reviewer
    rating := match r.rating with
      | some q => q
      | none => 5
    text := clean r.text }

/-- Serialization of one review in the simplest variant, lines 110-114:
the rating of the record unless nullish, else five. -/
def serializeReview000 (r : CandidateRecord) : ReviewRecord :=
  { reviewer := clean r.reviewer
    rating := r.rating.getD 5
    text := clean r.text }

/-- The review-like classification as the specification words it:
case-insensitively among the key names, at least one key matching or
containing a rating-indicator term (rating, stars, score), at least one
matching or containing a text-indicator term (text, message, comment,
review), and at least one matching or containing a user-indicator term
(username, reviewer, buyer, user).  Stated only for comparison against
the implemented classification (containment subsumes an exact match). -/
def specReviewLike (keys : List String) : Bool :=
  (keys.any fun k => strIncludes k "rating" || strIncludes k "stars" || strIncludes k "score") &&
  (keys.any fun k =>
    strIncludes k "text" || strIncludes k "message" || strIncludes k "comment" || strIncludes k "review") &&
  (keys.any fun k =>
    strIncludes k "username" || strIncludes k "reviewer" || strIncludes k "buyer" || strIncludes k "user")

/-- The gating invariant every record kept by any strategy of the network
variant satisfies: a non-empty reviewer, a present rating and a non-empty
text. -/
def GoodRec (r : CandidateRecord) : Prop :=
  r.reviewer ≠ "" ∧ r.rating ≠ none ∧ r.text ≠ ""

/-- A document with no elements. -/
def emptyDoc : DomDoc := ⟨[]⟩

/-- A captured payload whose single review-like item carries a rating of
ten, a two-character reviewer and a nine-character text: it passes the
network gate untouched. -/
def overflowPayload : Json :=
  Json.arr [Json.obj [("username", Json.str "ab"), ("rating", Json.num 10), ("comment", Json.str "hi there!")]]

/-- A captured payload with one well-formed review-like item. -/
def onePayload : Json :=
  Json.arr [Json.obj [("username", Json.str "carol_9"), ("rating", Json.num 5),
    ("comment", Json.str "excellent quality")]]

/-- A one-element document, used to observe that a successful network
strategy leaves the document unconsulted. -/
def altDoc : DomDoc := ⟨[⟨"div", "x", none⟩]⟩

/-- A document with three anchor-pattern review cards, the third an exact
duplicate of the first in reviewer, rating and text. -/
def threeCardDoc : DomDoc := ⟨[
  ⟨"div", "alice_01 5.0 11/11/2025 Amazing seller with quick delivery every time See more", none⟩,
  ⟨"a", "See more", some 0⟩,
  ⟨"div", "bob_22 4.8 10/10/2025 Great cards and fast careful shipping thanks See more", none⟩,
  ⟨"a", "See more", some 2⟩,
  ⟨"div", "alice_01 5.0 11/11/2025 Amazing seller with quick delivery every time See more", none⟩,
  ⟨"a", "See more", some 4⟩]⟩

/-- An adjacent pair that survives whitespace collapsing: not both
whitespace. -/
def NotBothWs (a b : Char) : Prop :=
  (jsWs a && jsWs b) = false

mutual
/-- No array occurs anywhere inside the value. -/
def arrayFree : Json → Bool
  | .arr _ => false
  | .obj kvs => arrayFreeKvs kvs
  | _ => true

/-- No array occurs anywhere inside the values of the binding list. -/
def arrayFreeKvs : List (String × Json) → Bool
  | [] => true
  | kv :: rest => arrayFree kv.2 && arrayFreeKvs rest
end

/- ### Lemmas about trimming and collapsing -/

theorem dropWhile_jsWs_head (l : List Char) (c : Char)
    (h : (l.dropWhile jsWs).head? = some c) : jsWs c = false := by
  have hh := List.head?_dropWhile_not jsWs l
  rw [h] at hh
  exact hh

theorem dropWhile_eq_self_of_head (l : List Char)
    (h : ∀ c, l.head? = some c → jsWs c = false) : l.dropWhile jsWs = l := by
  cases l with
  | nil => rfl
  | cons a as =>
    have ha : jsWs a = false := h a rfl
    simp [List.dropWhile_cons, ha]

theorem dropWhile_jsWs_idem (l : List Char) :
    (l.dropWhile jsWs).dropWhile jsWs = l.dropWhile jsWs :=
  dropWhile_eq_self_of_head _ (fun c h => dropWhile_jsWs_head l c h)

theorem head?_of_prefixOf {x y : List Char} (h : x <+: y) (hx : x ≠ []) :
    y.head? = x.head? := by
  obtain ⟨t, rfl⟩ := h
  cases x with
  | nil => exact absurd rfl hx
  | cons a as => rfl

theorem dropWhile_jsWs_suffix (l : List Char) : l.dropWhile jsWs <:+ l := by
  induction l with
  | nil => exact List.suffix_rfl
  | cons a as ih =>
    by_cases h : jsWs a = true
    · rw [List.dropWhile_cons_of_pos h]
      exact ih.trans (List.suffix_cons a as)
    · rw [List.dropWhile_cons_of_neg (by simpa using h)]

theorem backTrim_prefixOf (l : List Char) : backTrim l <+: l := by
  have h := dropWhile_jsWs_suffix l.reverse
  have h2 : (l.reverse.dropWhile jsWs).reverse <+: l.reverse.reverse :=
    List.reverse_prefix.mpr h
  rwa [List.reverse_reverse] at h2

theorem backTrim_idem (l : List Char) : backTrim (backTrim l) = backTrim l := by
  unfold backTrim
  rw [List.reverse_reverse, dropWhile_jsWs_idem]

theorem dropWhile_backTrim (l : List Char) :
    (backTrim (l.dropWhile jsWs)).dropWhile jsWs = backTrim (l.dropWhile jsWs) := by
  apply dropWhile_eq_self_of_head
  intro c h
  have hne : backTrim (l.dropWhile jsWs) ≠ [] := by
    intro he
    rw [he] at h
    exact Option.noConfusion h
  have heq := head?_of_prefixOf ( backTrim_prefixOf (l.dropWhile jsWs)) hne
  exact dropWhile_jsWs_head l c (heq.trans h)

theorem jsTrimL_idem (l : List Char) : jsTrimL (jsTrimL l) = jsTrimL l := by
  unfold jsTrimL
  rw [dropWhile_backTrim, backTrim_idem]

theorem collapseWs_head (c : Char) (cs : List Char) :
    (collapseWs (c :: cs)).head? = some (if jsWs c then ' ' else c) := by
  induction cs generalizing c with
  | nil => simp [collapseWs]
  | cons d ds ih =>
    by_cases h : (jsWs c && jsWs d) = true
    · rw [collapseWs, if_pos h]
      rw [Bool.and_eq_true] at h
      rw [ih d, if_pos h.2, if_pos h.1]
    · rw [collapseWs, if_neg h]
      rfl

theorem collapseWs_ws_mem (l : List Char) :
    ∀ c ∈ collapseWs l, jsWs c = true → c = ' ' := by
  induction l with
  | nil => intro c hc; simp [collapseWs] at hc
  | cons a as ih =>
    cases as with
    | nil =>
      intro c hc hw
      simp only [collapseWs, List.mem_singleton] at hc
      subst hc
      by_cases h : jsWs a = true
      · rw [if_pos h]
      · rw [if_neg h] at hw ⊢
        exact absurd hw h
    | cons d ds =>
      intro c hc hw
      rw [collapseWs] at hc
      by_cases h : (jsWs a && jsWs d) = true
      · rw [if_pos h] at hc
        exact ih c hc hw
      · rw [if_neg h] at hc
        rcases List.mem_cons.mp hc with hc1 | hc2
        · subst hc1
          by_cases ha : jsWs a = true
          · rw [if_pos ha]
          · rw [if_neg ha] at hw ⊢
            exact absurd hw ha
        · exact ih c hc2 hw

theorem collapseWs_chain (l : List Char) : (collapseWs l).Chain' NotBothWs := by
  induction l with
  | nil => simp [collapseWs]
  | cons a as ih =>
    cases as with
    | nil => simp [collapseWs]
    | cons d ds =>
      rw [collapseWs]
      by_cases h : (jsWs a && jsWs d) = true
      · rwa [if_pos h]
      · rw [if_neg h]
        rw [List.chain'_cons']
        refine ⟨?_, ih⟩
        intro b hb
        rw [collapseWs_head d ds] at hb
        rw [Option.mem_def, Option.some_inj] at hb
        subst hb
        show (jsWs (if jsWs a then ' ' else a) && jsWs (if jsWs d then ' ' else d)) = false
        rcases Bool.eq_false_or_eq_true (jsWs a) with ha | ha
        · have hd : jsWs d = false := by
            rcases Bool.eq_false_or_eq_true (jsWs d) with h1 | h1
            · exact absurd (by rw [ha, h1]; rfl) h
            · exact h1
          simp [ha, hd]
        · simp [ha]

theorem chain'_dropWhile {l : List Char} (h : l.Chain' NotBothWs) :
    (l.dropWhile jsWs).Chain' NotBothWs := by
  induction l with
  | nil => exact h
  | cons a as ih =>
    by_cases hp : jsWs a = true
    · rw [List.dropWhile_cons_of_pos hp]
      exact ih h.tail
    · rwa [List.dropWhile_cons_of_neg (by simpa using hp)]

theorem chain'_reverse_ws {l : List Char} (h : l.Chain' NotBothWs) :
    l.reverse.Chain' NotBothWs := by
  rw [List.chain'_reverse]
  refine h.imp (fun a b hab => ?_)
  show (jsWs b && jsWs a) = false
  rw [Bool.and_comm]
  exact hab

theorem chain'_backTrim {l : List Char} (h : l.Chain' NotBothWs) :
    (backTrim l).Chain' NotBothWs :=
  chain'_reverse_ws (chain'_dropWhile (chain'_reverse_ws h))

theorem chain'_jsTrimL {l : List Char} (h : l.Chain' NotBothWs) :
    (jsTrimL l).Chain' NotBothWs :=
  chain'_backTrim (chain'_dropWhile h)

theorem mem_backTrim {c : Char} {l : List Char} (h : c ∈ backTrim l) : c ∈ l := by
  unfold backTrim at h
  rw [List.mem_reverse] at h
  have := (@List.dropWhile_sublist _ l.reverse jsWs).subset h
  rwa [List.mem_reverse] at this

theorem mem_jsTrimL {c : Char} {l : List Char} (h : c ∈ jsTrimL l) : c ∈ l := by
  unfold jsTrimL at h
  exact (List.dropWhile_sublist jsWs).subset (mem_backTrim h)

theorem collapseWs_eq_self {l : List Char} (hch : l.Chain' NotBothWs)
    (hws : ∀ c ∈ l, jsWs c = true → c = ' ') : collapseWs l = l := by
  induction l with
  | nil => rfl
  | cons a as ih =>
    cases as with
    | nil =>
      show [if jsWs a then ' ' else a] = [a]
      by_cases h : jsWs a = true
      · rw [if_pos h, hws a (List.mem_singleton_self a) h]
      · rw [if_neg h]
    | cons d ds =>
      rw [collapseWs]
      have hnb : NotBothWs a d := (List.chain'_cons.mp hch).1
      rw [if_neg (by simpa [NotBothWs] using hnb)]
      have htail : collapseWs (d :: ds) = d :: ds :=
        ih (List.chain'_cons.mp hch).2 (fun c hc hw => hws c (List.mem_cons_of_mem a hc) hw)
      rw [htail]
      by_cases h : jsWs a = true
      · rw [if_pos h, hws a (List.mem_cons_self a _) h]
      · rw [if_neg h]

theorem clean_idem (s : String) : clean (clean s) = clean s := by
  show String.mk (jsTrimL (collapseWs (jsTrimL (collapseWs s.data)))) = _
  rw [collapseWs_eq_self (chain'_jsTrimL (collapseWs_chain s.data))
    (fun c hc hw => collapseWs_ws_mem s.data c (mem_jsTrimL hc) hw)]
  rw [jsTrimL_idem]
  rfl

/- ### Lemmas about deduplication -/

theorem dedupeGo_idem (seen : List String) (xs : List CandidateRecord) :
    dedupeGo seen (dedupeGo seen xs) = dedupeGo seen xs := by
  induction xs generalizing seen with
  | nil => rfl
  | cons r rs ih =>
    by_cases h : seen.contains (dedupeKey r) = true
    · rw [dedupeGo, if_pos h, ih]
    · rw [dedupeGo, if_neg h, dedupeGo, if_neg h, ih]

theorem mem_of_mem_dedupeGo {r : CandidateRecord} {seen : List String}
    {xs : List CandidateRecord} (h : r ∈ dedupeGo seen xs) : r ∈ xs := by
  induction xs generalizing seen with
  | nil => simp [dedupeGo] at h
  | cons x rest ih =>
    rw [dedupeGo] at h
    by_cases hc : seen.contains (dedupeKey x) = true
    · rw [if_pos hc] at h
      exact List.mem_cons_of_mem x (ih h)
    · rw [if_neg hc] at h
      rcases List.mem_cons.mp h with h1 | h2
      · exact h1 ▸ List.mem_cons_self x rest
      · exact List.mem_cons_of_mem x (ih h2)

/- ### Lemmas about the structural scanner -/

mutual
theorem findDeep_arrayFree : ∀ (j : Json) (acc : List Json), arrayFree j = true →
    findReviewItemsDeep j acc = acc
  | .null, _, _ => rfl
  | .bool b, _, _ => by cases b <;> rfl
  | .num q, acc, _ => by
      show (if jsFalsy (Json.num q) then acc else acc) = acc
      split <;> rfl
  | .str s, acc, _ => by
      show (if jsFalsy (Json.str s) then acc else acc) = acc
      split <;> rfl
  | .arr _, _, h => by rw [arrayFree] at h; exact absurd h (by simp)
  | .obj kvs, acc, h => by
      rw [arrayFree] at h
      exact findDeepVals_arrayFree kvs acc h

theorem findDeepVals_arrayFree : ∀ (kvs : List (String × Json)) (acc : List Json),
    arrayFreeKvs kvs = true → findDeepVals kvs acc = acc
  | [], _, _ => rfl
  | kv :: rest, acc, h => by
      rw [arrayFreeKvs, Bool.and_eq_true] at h
      calc findDeepVals (kv :: rest) acc
          = findDeepVals rest (findReviewItemsDeep kv.2 acc) := rfl
        _ = findDeepVals rest acc := by rw [findDeep_arrayFree kv.2 acc h.1]
        _ = acc := findDeepVals_arrayFree rest acc h.2
end

theorem findDeepList_arrayFree : ∀ (xs : List Json) (acc : List Json),
    xs.all arrayFree = true → findDeepList xs acc = acc
  | [], _, _ => rfl
  | x :: rest, acc, h => by
      rw [List.all_cons, Bool.and_eq_true] at h
      calc findDeepList (x :: rest) acc
          = findDeepList rest (findReviewItemsDeep x acc) := rfl
        _ = findDeepList rest acc := by rw [findDeep_arrayFree x acc h.1]
        _ = acc := findDeepList_arrayFree rest acc h.2

theorem findDeep_arr_eq_filter (xs : List Json) (h : xs.all arrayFree = true) :
    findReviewItemsDeep (Json.arr xs) [] = xs.filter fun it => isObject it && reviewLike it := by
  have hstep : findReviewItemsDeep (Json.arr xs) [] =
      findDeepList xs (if 1 ≤ (xs.filter fun it => isObject it && reviewLike it).length
        then [] ++ xs.filter (fun it => isObject it && reviewLike it) else []) := rfl
  rw [hstep, findDeepList_arrayFree xs _ h]
  by_cases hm : 1 ≤ (xs.filter fun it => isObject it && reviewLike it).length
  · rw [if_pos hm, List.nil_append]
  · rw [if_neg hm]
    have h0 : (xs.filter fun it => isObject it && reviewLike it).length = 0 := by omega
    rw [List.length_eq_zero] at h0
    rw [h0]

/- ### Lemmas about the gating invariant -/

theorem reviewerAtStart_ne_empty {t u : String} (h : reviewerAtStart t = some u) :
    u ≠ "" := by
  dsimp only [reviewerAtStart] at h
  generalize hgen : (t.data.dropWhile jsWs).takeWhile wordChar = run at h
  by_cases hc : (decide (3 ≤ run.length) && decide (run.length ≤ 25)) = true
  · rw [if_pos hc] at h
    obtain rfl := Option.some.inj h
    rw [Bool.and_eq_true, decide_eq_true_eq, decide_eq_true_eq] at hc
    intro he
    have h0 : run.length = 0 := by
      simpa using congrArg List.length (congrArg String.data he)
    omega
  · rw [if_neg hc] at h
    exact absurd h (by simp)

theorem networkGate_good {it : Json} {r : CandidateRecord}
    (h : networkGate it = some r) : GoodRec r := by
  unfold networkGate at h
  by_cases h1 : ((normalizeReview it).reviewer == "" || (normalizeReview it).text == ""
      || (normalizeReview it).rating.isNone) = true
  · rw [if_pos h1] at h
    exact absurd h (by simp)
  · rw [if_neg h1] at h
    by_cases h2 : mjsNetNoise (normalizeReview it).text = true
    · rw [if_pos h2] at h
      exact absurd h (by simp)
    · rw [if_neg h2] at h
      obtain rfl := Option.some.inj h
      simp only [Bool.or_eq_true, beq_iff_eq, Option.isNone_iff_eq_none, not_or] at h1
      exact ⟨h1.1.1, h1.2, h1.1.2⟩

theorem mjsParseBlock_good {t : String} {r : CandidateRecord}
    (h : mjsParseBlock t = some r) : GoodRec r := by
  unfold mjsParseBlock at h
  by_cases hn : mjsDomNoise t = true
  · rw [if_pos hn] at h
    exact absurd h (by simp)
  · rw [if_neg hn] at h
    rcases hg : getRating t with _ | q <;> rcases hu : reviewerAtStart t with _ | u <;>
        rw [hg, hu] at h <;> dsimp only at h
    · exact absurd h (by simp)
    · exact absurd h (by simp)
    · exact absurd h (by simp)
    · by_cases hl : (jsTrim (stripReviewerAtStart u (jsTrim (stripSeeMoreAll t)))).length < 10
      · rw [if_pos hl] at h
        exact absurd h (by simp)
      · rw [if_neg hl] at h
        obtain rfl := Option.some.inj h
        refine ⟨reviewerAtStart_ne_empty hu, by simp, ?_⟩
        intro he
        have hlen : (jsTrim (stripReviewerAtStart u (jsTrim (stripSeeMoreAll t)))).length = 0 := by
          simpa using congrArg String.length he
        omega

theorem netItems_good {its : List Json} {acc : List CandidateRecord}
    (hacc : ∀ r ∈ acc, GoodRec r) : ∀ r ∈ (netItems its acc).1, GoodRec r := by
  induction its generalizing acc with
  | nil => exact hacc
  | cons it rest ih =>
    intro r hr
    simp only [netItems] at hr
    rcases hg : networkGate it with _ | r0
    · rw [hg] at hr
      exact ih hacc r hr
    · rw [hg] at hr
      dsimp only at hr
      have hacc2 : ∀ s ∈ r0 :: acc, GoodRec s := by
        intro s hs
        rcases List.mem_cons.mp hs with rfl | hs2
        · exact networkGate_good hg
        · exact hacc _ hs2
      by_cases hb : 50 < (r0 :: acc).length
      · rw [if_pos hb] at hr
        exact hacc2 r hr
      · rw [if_neg hb] at hr
        exact ih hacc2 r hr

theorem netPayloads_good {cs : List Json} {acc : List CandidateRecord}
    (hacc : ∀ r ∈ acc, GoodRec r) : ∀ r ∈ netPayloads cs acc, GoodRec r := by
  induction cs generalizing acc with
  | nil => exact fun r hr => hacc r (List.mem_reverse.mp hr)
  | cons c rest ih =>
    intro r hr
    simp only [netPayloads] at hr
    have hgood := @netItems_good (findReviewItemsDeep c []) acc hacc
    rcases hni : netItems (findReviewItemsDeep c []) acc with ⟨acc2, flag⟩
    rw [hni] at hgood hr
    cases flag
    · exact ih hgood r hr
    · exact hgood r (List.mem_reverse.mp hr)

theorem domFallbackGo_good {limit : ℕ} {ts : List String} {acc : List CandidateRecord}
    (hacc : ∀ r ∈ acc, GoodRec r) : ∀ r ∈ domFallbackGo limit ts acc, GoodRec r := by
  induction ts generalizing acc with
  | nil => exact fun r hr => hacc r (List.mem_reverse.mp hr)
  | cons t rest ih =>
    intro r hr
    simp only [domFallbackGo] at hr
    rcases hp : mjsParseBlock t with _ | r0
    · rw [hp] at hr
      exact ih hacc r hr
    · rw [hp] at hr
      dsimp only at hr
      have hacc2 : ∀ s ∈ r0 :: acc, GoodRec s := by
        intro s hs
        rcases List.mem_cons.mp hs with rfl | hs2
        · exact mjsParseBlock_good hp
        · exact hacc _ hs2
      by_cases hb : limit ≤ (r0 :: acc).length
      · rw [if_pos hb] at hr
        exact hacc2 r (List.mem_reverse.mp hr)
      · rw [if_neg hb] at hr
        exact ih hacc2 r hr

/- ### The claims -/

/-- C1 counterexample: with the captured payload overflowPayload the final
ResultSet of a run holds the record (ab, 10, hi there!), whose rating
exceeds five, whose reviewer is shorter than three characters and whose
text is shorter than ten characters — the network gate checks neither the
rating range, nor the reviewer pattern, nor the text length. -/
theorem c1_counterexample :
    mjsRun [overflowPayload] emptyDoc 6 = [⟨"ab", some 10, "hi there!"⟩] ∧
    ¬((10 : ℚ) ≤ 5) ∧ "ab".length < 3 ∧ "hi there!".length < 10 := by
  refine ⟨by with_unfolding_all rfl, by norm_num, by decide, by decide⟩

/-- C1 (amended): every record in the final ResultSet of a run of the
network pipeline has a non-empty reviewer, a present (non-null) rating and
a non-empty text, because both the network gate and the DOM fallback drop
candidates missing one of them; the rating bounds, the reviewer pattern
and the ten-character text minimum are not enforced on the network path. -/
theorem c1_gating_amended (payloads : List Json) (doc : DomDoc) (limit : ℕ)
    (r : CandidateRecord) (hr : r ∈ mjsRun payloads doc limit) :
    r.reviewer ≠ "" ∧ r.rating ≠ none ∧ r.text ≠ "" := by
  have hform : mjsRun payloads doc limit =
      (if (dedupe (networkExtract payloads)).isEmpty then domFallback doc limit
        else dedupe (networkExtract payloads)).take limit := rfl
  rw [hform] at hr
  have hr2 := List.take_subset _ _ hr
  by_cases he : (dedupe (networkExtract payloads)).isEmpty = true
  · rw [if_pos he] at hr2
    have hform2 : domFallback doc limit =
        (domFallbackGo limit (((doc.byTags ["div"]).map fun el => clean el.textContent).filter
          fun t => decide (40 < t.length) && decide (t.length < 500)) []).take limit := rfl
    rw [hform2] at hr2
    have hr3 := List.take_subset _ _ hr2
    exact domFallbackGo_good (fun s hs => absurd hs (List.not_mem_nil s)) r hr3
  · rw [if_neg he] at hr2
    exact netPayloads_good (fun s hs => absurd hs (List.not_mem_nil s)) r
      (mem_of_mem_dedupeGo hr2)

/-- C1 witness: the amended invariant observed on a concrete run. -/
theorem c1_gating_amended_witness :
    (⟨"ab", some 10, "hi there!"⟩ : CandidateRecord) ∈ mjsRun [overflowPayload] emptyDoc 6 ∧
    (("ab" : String) ≠ "" ∧ (some (10 : ℚ) : Option ℚ) ≠ none ∧ ("hi there!" : String) ≠ "") := by
  have hm : (⟨"ab", some 10, "hi there!"⟩ : CandidateRecord) ∈
      mjsRun [overflowPayload] emptyDoc 6 := by
    have he : mjsRun [overflowPayload] emptyDoc 6 = [⟨"ab", some 10, "hi there!"⟩] := by
      with_unfolding_all rfl
    rw [he]
    exact List.mem_singleton_self _
  exact ⟨hm, c1_gating_amended [overflowPayload] emptyDoc 6 _ hm⟩

/-- C2 counterexample: on the block
"bob_the_builder 4.8 11/11/2025 Fast shipment and great packaging see more"
the body extraction does not produce the text
"Fast shipment and great packaging": the date survives, because at the
moment of the leading-date strip the remaining text still starts with the
rating token. -/
theorem c2_counterexample :
    parseCard "bob_the_builder 4.8 11/11/2025 Fast shipment and great packaging see more" ≠
      some ⟨"bob_the_builder", some (4.8 : ℚ), "Fast shipment and great packaging"⟩ := by
  have he : parseCard
      "bob_the_builder 4.8 11/11/2025 Fast shipment and great packaging see more" =
      some ⟨"bob_the_builder", some (4.8 : ℚ),
        "11/11/2025 Fast shipment and great packaging"⟩ := by
    with_unfolding_all rfl
  rw [he]
  intro hcon
  have ht : ("11/11/2025 Fast shipment and great packaging" : String) =
      "Fast shipment and great packaging" :=
    congrArg CandidateRecord.text (Option.some.inj hcon)
  exact absurd ht (by decide)

/-- C2 (amended): on that block the body extraction yields reviewer
bob_the_builder, rating 4.8, and text
"11/11/2025 Fast shipment and great packaging": the expand marker is
removed, then the reviewer, a leading date and a leading rating are each
stripped once in that order, and since the rating token precedes the date
in this block the date strip finds no leading date, so the date token
remains in the body. -/
theorem c2_body_extraction_amended :
    parseCard "bob_the_builder 4.8 11/11/2025 Fast shipment and great packaging see more" =
      some ⟨"bob_the_builder", some (4.8 : ℚ),
        "11/11/2025 Fast shipment and great packaging"⟩ := by
  with_unfolding_all rfl

/-- C3: the orchestrator runs the strategies in fixed order and
short-circuits — when the network strategy's deduplicated output is
non-empty, that output truncated to the limit is the result and the
document (hence any DOM strategy) is never consulted; when every strategy
yields nothing, the run produces the empty ResultSet as an ordinary
value, not an error. -/
theorem c3_orchestrator (payloads : List Json) (doc doc2 : DomDoc) (n : ℕ) :
    ((dedupe (networkExtract payloads)).isEmpty = false →
      mjsRun payloads doc n = (dedupe (networkExtract payloads)).take n ∧
      mjsRun payloads doc n = mjsRun payloads doc2 n) ∧
    ((dedupe (networkExtract payloads)).isEmpty = true → domFallback doc n = [] →
      mjsRun payloads doc n = []) := by
  have hform : ∀ d : DomDoc, mjsRun payloads d n =
      (if (dedupe (networkExtract payloads)).isEmpty then domFallback d n
        else dedupe (networkExtract payloads)).take n := fun _ => rfl
  constructor
  · intro hne
    rw [hform doc, hform doc2, hne]
    simp
  · intro he hdom
    rw [hform doc, if_pos he, hdom]
    exact List.take_nil

/-- C3 witness: the short-circuit at a payload whose network output is
non-empty (two different documents give the same result), and normal
empty termination with no inputs at all. -/
theorem c3_orchestrator_witness :
    (mjsRun [onePayload] emptyDoc 6 = (dedupe (networkExtract [onePayload])).take 6 ∧
      mjsRun [onePayload] emptyDoc 6 = mjsRun [onePayload] altDoc 6) ∧
    mjsRun [] emptyDoc 6 = [] := by
  refine ⟨(c3_orchestrator [onePayload] emptyDoc altDoc 6).1 (by with_unfolding_all rfl), ?_⟩
  exact (c3_orchestrator [] emptyDoc emptyDoc 6).2 rfl rfl

/-- C4: with zero captured network payloads (the network stage yields
nothing) and a document whose anchor-based strategy yields three candidate
cards, one an exact duplicate of another in the reviewer, rating and text
triple, the anchor run with limit six returns exactly the two distinct
records, in first-seen order. -/
theorem c4_end_to_end :
    dedupe (networkExtract []) = [] ∧
    anchorEvaluate threeCardDoc 6 =
      [⟨"alice_01", some (5.0 : ℚ), "11/11/2025 Amazing seller with quick delivery every time"⟩,
       ⟨"bob_22", some (4.8 : ℚ), "10/10/2025 Great cards and fast careful shipping thanks"⟩] :=
  ⟨rfl, by with_unfolding_all rfl⟩

/-- C5: the deduplicator is idempotent — deduplicating an already
deduplicated sequence changes nothing. -/
theorem c5_dedupe_idempotent (xs : List CandidateRecord) :
    dedupe (dedupe xs) = dedupe xs :=
  dedupeGo_idem [] xs

/-- C6 counterexample: an object with keys five_stars, text and user
satisfies the claimed matching-or-containing classification (five_stars
contains stars), yet the scanner collects nothing from an array holding
it — the code tests containment only for rating, not for stars or
score. -/
theorem c6_counterexample :
    specReviewLike (lowerKeys [("five_stars", Json.num 5), ("text", Json.str "x"),
      ("user", Json.str "y")]) = true ∧
    findReviewItemsDeep (Json.arr [Json.obj [("five_stars", Json.num 5), ("text", Json.str "x"),
      ("user", Json.str "y")]]) [] = [] :=
  ⟨by with_unfolding_all rfl, by with_unfolding_all rfl⟩

/-- C6 (amended): from an array the scanner collects exactly the elements
that are objects whose lowercased key names have at least one key
containing rating or equal to stars or score, at least one containing
text, message or comment or equal to review, and at least one containing
user or buyer or equal to reviewer; on an empty array or empty object it
returns the empty sequence, and from a tree holding one array of one
fully-qualified review-like object it returns exactly that object. -/
theorem c6_scanner_amended (xs : List Json) (h : xs.all arrayFree = true) :
    findReviewItemsDeep (Json.arr xs) [] = (xs.filter fun it => isObject it && reviewLike it) ∧
    findReviewItemsDeep (Json.arr []) [] = [] ∧
    findReviewItemsDeep (Json.obj []) [] = [] ∧
    findReviewItemsDeep (Json.obj [("data", Json.arr [Json.obj [("username", Json.str "alice99"),
        ("stars", Json.num 5), ("comment", Json.str "nice")]])]) [] =
      [Json.obj [("username", Json.str "alice99"), ("stars", Json.num 5),
        ("comment", Json.str "nice")]] :=
  ⟨findDeep_arr_eq_filter xs h, rfl, rfl, by with_unfolding_all rfl⟩

/-- C6 witness: the amended characterization at a two-element array, one
qualifying object and one scalar. -/
theorem c6_scanner_amended_witness :
    findReviewItemsDeep (Json.arr [Json.obj [("rating", Json.num 5), ("text", Json.str "t"),
        ("user", Json.str "u")], Json.str "misc"]) [] =
      [Json.obj [("rating", Json.num 5), ("text", Json.str "t"), ("user", Json.str "u")]] ∧
    findReviewItemsDeep (Json.arr []) [] = [] ∧
    findReviewItemsDeep (Json.obj []) [] = [] ∧
    findReviewItemsDeep (Json.obj [("data", Json.arr [Json.obj [("username", Json.str "alice99"),
        ("stars", Json.num 5), ("comment", Json.str "nice")]])]) [] =
      [Json.obj [("username", Json.str "alice99"), ("stars", Json.num 5),
        ("comment", Json.str "nice")]] := by
  have h := c6_scanner_amended [Json.obj [("rating", Json.num 5), ("text", Json.str "t"),
    ("user", Json.str "u")], Json.str "misc"] (by with_unfolding_all rfl)
  exact ⟨h.1.trans (by with_unfolding_all rfl), h.2⟩

/-- C7: the field normalizer maps the object with username alice99, the
string rating 4.7 under stars, and a comment, to the record with reviewer
alice99, numeric rating 4.7 and that comment as text. -/
theorem c7_normalizer :
    normalizeReview (Json.obj [("username", Json.str "alice99"), ("stars", Json.str "4.7"),
      ("comment", Json.str "Great seller, fast shipping!")]) =
      ⟨"alice99", some (4.7 : ℚ), "Great seller, fast shipping!"⟩ := by
  with_unfolding_all rfl

/-- C8: for every run and every limit, the final ResultSet holds at most
that many records — both in the network pipeline and in the anchor
variant. -/
theorem c8_limit_bound (payloads : List Json) (doc : DomDoc) (n : ℕ) :
    (mjsRun payloads doc n).length ≤ n ∧ (anchorEvaluate doc n).length ≤ n := by
  constructor
  · obtain ⟨l, hl⟩ : ∃ l : List CandidateRecord, mjsRun payloads doc n = l.take n := ⟨_, rfl⟩
    rw [hl, List.length_take]
    exact inf_le_left
  · obtain ⟨l, hl⟩ : ∃ l : List CandidateRecord, anchorEvaluate doc n = l.take n := ⟨_, rfl⟩
    rw [hl, List.length_take]
    exact inf_le_left

/-- C9: at serialization a record whose rating is absent (not a number)
receives the default five, and a present rating is serialized unchanged —
in both serializers. -/
theorem c9_rating_default (rv txt : String) (q : ℚ) :
    (serializeReview ⟨rv, none, txt⟩).rating = 5 ∧
    (serializeReview ⟨rv, some q, txt⟩).rating = q ∧
    (serializeReview000 ⟨rv, none, txt⟩).rating = 5 ∧
    (serializeReview000 ⟨rv, some q, txt⟩).rating = q :=
  ⟨rfl, rfl, rfl, rfl⟩

/-- C10: for every input the normalizer returns (without error) reviewer
and text fields that are strings and fixed points of whitespace cleaning
— the empty string, never null, whenever the field does not resolve to a
string — and a rating that is a number or null. -/
theorem c10_normalizer_shape (item : Json) :
    clean (normalizeReview item).reviewer = (normalizeReview item).reviewer ∧
    clean (normalizeReview item).text = (normalizeReview item).text ∧
    ((normalizeReview item).rating = none ∨ ∃ q, (normalizeReview item).rating = some q) ∧
    (reviewerRaw item = none → (normalizeReview item).reviewer = "") ∧
    (textRaw item = none → (normalizeReview item).text = "") := by
  refine ⟨clean_idem _, clean_idem _, ?_, ?_, ?_⟩
  · rcases hq : (normalizeReview item).rating with _ | q
    · exact Or.inl rfl
    · exact Or.inr ⟨q, rfl⟩
  · intro h
    show clean (strOrEmpty (reviewerRaw item)) = ""
    rw [h]
    rfl
  · intro h
    show clean (strOrEmpty (textRaw item)) = ""
    rw [h]
    rfl

/-- C10 witness: the shape at the empty object, where neither the reviewer
nor the text resolves. -/
theorem c10_normalizer_shape_witness :
    clean (normalizeReview (Json.obj [])).reviewer = (normalizeReview (Json.obj [])).reviewer ∧
    clean (normalizeReview (Json.obj [])).text = (normalizeReview (Json.obj [])).text ∧
    ((normalizeReview (Json.obj [])).rating = none ∨
      ∃ q, (normalizeReview (Json.obj [])).rating = some q) ∧
    (normalizeReview (Json.obj [])).reviewer = "" ∧
    (normalizeReview (Json.obj [])).text = "" := by
  obtain ⟨h1, h2, h3, h4, h5⟩ := c10_normalizer_shape (Json.obj [])
  exact ⟨h1, h2, h3, h4 rfl, h5 rfl⟩

end Whatnot
